import Mathlib

/-!
Verification development for the bracket-pair AST of
`src/vs/editor/common/model/bracketPairColorizer/ast.ts`.

The five node variants (`TextAstNode`, `BracketAstNode`, `InvalidBracketAstNode`,
`PairAstNode`, `ListAstNode` / `ImmutableListAstNode`) are embedded as one
inductive type.  Every node carries an `id : Nat` modelling JavaScript object
identity: operations that allocate (`new ...`) thread a fresh-id counter, and
operations that return `this` keep the id.  The `immutable : Bool` field of a
`list` node records whether the instance is an `ImmutableListAstNode`.
-/

/-- Modelled from the spec: the `Length` type of `./length` (not under `src/`) is an
additive measure of text extent with a zero value and a stable hash suitable as a
cache key.  We model it as `Nat`. -/
abbrev Length := Nat

/-- Modelled from the spec: the zero `Length`. -/
def lengthZero : Length := 0

/-- Modelled from the spec: `Length` addition. -/
def lengthAdd (a b : Length) : Length := a + b

/-- Modelled from the spec: a stable hash of a `Length`, suitable as a cache key
(distinct lengths have distinct keys). -/
def lengthHash (l : Length) : Nat := l

/-- Modelled from the spec: `SmallImmutableSet` of `./smallImmutableSet`
(not under `src/`) is an immutable bitset over small integer category keys,
supporting union (`merge`) and an intersection test. -/
structure CatSet where
  bits : Nat
deriving DecidableEq

/-- Modelled from the spec: the empty category set (`SmallImmutableSet.getEmpty`). -/
def CatSet.getEmpty : CatSet := ⟨0⟩

/-- Modelled from the spec: `add` inserts a category; the dense-key allocator is
modelled as the identity on categories. -/
def CatSet.add (s : CatSet) (category : Nat) : CatSet := ⟨s.bits ||| (1 <<< category)⟩

/-- Modelled from the spec: `merge` is set union. -/
def CatSet.merge (a b : CatSet) : CatSet := ⟨a.bits ||| b.bits⟩

/-- Modelled from the spec: `intersects` tests for a common element. -/
def CatSet.intersects (a b : CatSet) : Bool := a.bits &&& b.bits != 0

/-- The `AstNodeKind` discriminator of `ast.ts`. -/
inductive AstNodeKind where
  | Text
  | Bracket
  | Pair
  | UnexpectedClosingBracket
  | List
deriving DecidableEq

/-- The AST node type of `ast.ts`.  `text`, `bracket`, `invalid` are the three
leaf classes; `pair` stores the fields of `PairAstNode` (aggregate `length` and
`unopenedBrackets` are stored, as in the class); `list` covers both
`ListAstNode` (`immutable = false`) and `ImmutableListAstNode`
(`immutable = true`). -/
inductive AstNode where
  | text (id : Nat) (length : Length)
  | bracket (id : Nat) (length : Length)
  | invalid (id : Nat) (category : Nat) (length : Length)
  | pair (id : Nat) (length : Length) (category : Nat) (openingBracket : AstNode)
      (child : Option AstNode) (closingBracket : Option AstNode)
      (unopenedBrackets : CatSet)
  | list (id : Nat) (immutable : Bool) (length : Length) (listHeight : Nat)
      (children : List AstNode) (unopenedBrackets : CatSet)

/-- Object identity of a node. -/
def AstNode.nodeId : AstNode → Nat
  | .text i _ => i
  | .bracket i _ => i
  | .invalid i _ _ => i
  | .pair i _ _ _ _ _ _ => i
  | .list i _ _ _ _ _ => i

/-- The `kind` getter. -/
def AstNode.kind : AstNode → AstNodeKind
  | .text _ _ => .Text
  | .bracket _ _ => .Bracket
  | .invalid _ _ _ => .UnexpectedClosingBracket
  | .pair _ _ _ _ _ _ _ => .Pair
  | .list _ _ _ _ _ _ => .List

/-- The `length` getter (the stored `_length` field). -/
def AstNode.length : AstNode → Length
  | .text _ l => l
  | .bracket _ l => l
  | .invalid _ _ l => l
  | .pair _ l _ _ _ _ _ => l
  | .list _ _ l _ _ _ => l

/-- The `listHeight` getter: 0 for all non-list nodes, the stored field for lists. -/
def AstNode.listHeight : AstNode → Nat
  | .list _ _ _ h _ _ => h
  | _ => 0

/-- The `unopenedBrackets` getter: empty for text and bracket leaves, the
singleton category for an `InvalidBracketAstNode` (its constructor computes
`getEmpty().add(category)`), the stored field for pair and list nodes. -/
def AstNode.unopenedBrackets : AstNode → CatSet
  | .text _ _ => CatSet.getEmpty
  | .bracket _ _ => CatSet.getEmpty
  | .invalid _ c _ => CatSet.getEmpty.add c
  | .pair _ _ _ _ _ _ u => u
  | .list _ _ _ _ _ u => u

/-- The `children` getter: a pair pushes its opening bracket, then the child and
closing bracket when present; a list returns its child array; leaves have none. -/
def AstNode.childrenList : AstNode → List AstNode
  | .pair _ _ _ ob ch cb _ => [ob] ++ ch.toList ++ cb.toList
  | .list _ _ _ _ cs _ => cs
  | _ => []

/-- Whether the node is a `List` node (of either mutability). -/
def AstNode.isList : AstNode → Bool
  | .list _ _ _ _ _ _ => true
  | _ => false

/-- Whether the node is an `ImmutableListAstNode`. -/
def AstNode.isImmutableList : AstNode → Bool
  | .list _ imm _ _ _ _ => imm
  | _ => false

/-- `computeLength` of `ast.ts`: opening bracket plus optional child plus
optional closing bracket. -/
def computeLength (openingBracket : AstNode) (child closingBracket : Option AstNode) :
    Length :=
  let l := openingBracket.length
  let l := match child with
    | some c => lengthAdd l c.length
    | none => l
  match closingBracket with
  | some c => lengthAdd l c.length
  | none => l

/-- `PairAstNode.create`: computes the aggregate length and takes the child's
`unopenedBrackets` (empty when there is no child).  The `id` models the fresh
object identity of the allocation. -/
def PairAstNode.create (id : Nat) (category : Nat) (openingBracket : AstNode)
    (child closingBracket : Option AstNode) : AstNode :=
  .pair id (computeLength openingBracket child closingBracket) category
    openingBracket child closingBracket
    (match child with
     | some c => c.unopenedBrackets
     | none => CatSet.getEmpty)

/-- The left-to-right fold of `ListAstNode.create` / `handleChildrenChanged`:
starting from the first item's length, `lengthAdd` the rest. -/
def foldLengths (x : AstNode) (xs : List AstNode) : Length :=
  xs.foldl (fun a c => lengthAdd a c.length) x.length

/-- The left-to-right fold of `ListAstNode.create` / `handleChildrenChanged`:
starting from the first item's `unopenedBrackets`, `merge` the rest. -/
def foldUnopened (x : AstNode) (xs : List AstNode) : CatSet :=
  xs.foldl (fun a c => CatSet.merge a c.unopenedBrackets) x.unopenedBrackets

/-- `ListAstNode.create`: an empty item list gives a height-0 list with zero
length and empty set; a non-empty one gives height `items[0].listHeight + 1` and
left-to-right folded aggregates.  `immutable` selects the class of the result. -/
def ListAstNode.create (id : Nat) (items : List AstNode) (immutable : Bool := false) :
    AstNode :=
  match items with
  | [] => .list id immutable lengthZero 0 [] CatSet.getEmpty
  | x :: xs =>
      .list id immutable (foldLengths x xs) (x.listHeight + 1) (x :: xs)
        (foldUnopened x xs)

/-- `ListAstNode.handleChildrenChanged`, acting on the fields of a list node:
when the child array is empty it returns early, leaving the stored aggregates
unchanged; otherwise it recomputes them by the left-to-right fold. -/
def handleChildrenChanged (id : Nat) (immutable : Bool) (length : Length)
    (listHeight : Nat) (children : List AstNode) (unopened : CatSet) : AstNode :=
  match children with
  | [] => .list id immutable length listHeight [] unopened
  | x :: xs =>
      .list id immutable (foldLengths x xs) listHeight (x :: xs) (foldUnopened x xs)

/-- The error message of `ImmutableListAstNode.throwIfImmutable`. -/
def immutableError : String := "this instance is immutable"

/-- `ListAstNode.appendChildOfSameHeight`: throws on an immutable instance,
otherwise pushes the node and recomputes the aggregates. -/
def appendChildOfSameHeight (n node : AstNode) : Except String AstNode :=
  match n with
  | .list id imm len h cs un =>
      if imm then .error immutableError
      else .ok (handleChildrenChanged id imm len h (cs ++ [node]) un)
  | _ => .error "not a ListAstNode"

/-- `ListAstNode.prependChildOfSameHeight`: throws on an immutable instance,
otherwise unshifts the node and recomputes the aggregates. -/
def prependChildOfSameHeight (n node : AstNode) : Except String AstNode :=
  match n with
  | .list id imm len h cs un =>
      if imm then .error immutableError
      else .ok (handleChildrenChanged id imm len h (node :: cs) un)
  | _ => .error "not a ListAstNode"

/-- `ListAstNode.unappendChild`: throws on an immutable instance, otherwise pops
the last child (returned alongside the updated node) and recomputes. -/
def unappendChild (n : AstNode) : Except String (Option AstNode × AstNode) :=
  match n with
  | .list id imm len h cs un =>
      if imm then .error immutableError
      else .ok (cs.getLast?, handleChildrenChanged id imm len h cs.dropLast un)
  | _ => .error "not a ListAstNode"

/-- `ListAstNode.unprependChild`: throws on an immutable instance, otherwise
shifts the first child (returned alongside the updated node) and recomputes. -/
def unprependChild (n : AstNode) : Except String (Option AstNode × AstNode) :=
  match n with
  | .list id imm len h cs un =>
      if imm then .error immutableError
      else .ok (cs.head?, handleChildrenChanged id imm len h cs.tail un)
  | _ => .error "not a ListAstNode"

/-- `toMutable`: the base-class implementation returns `this`; the
`ImmutableListAstNode` override allocates a mutable `ListAstNode` with the same
fields and a shallow copy of the child array.  `c` is the fresh-id counter. -/
def AstNode.toMutable (n : AstNode) (c : Nat) : AstNode × Nat :=
  match n with
  | .list _ true len h cs un => (.list c false len h cs un, c + 1)
  | n => (n, c)

/-- The last element of the non-empty list `c :: cs` (the `tail` helper of
`vs/base/common/arrays` applied to a child array known non-empty). -/
def lastOf (c : AstNode) (cs : List AstNode) : AstNode :=
  match cs with
  | [] => c
  | c' :: cs' => lastOf c' cs'

/-- `lastOf` picks a member of the list. -/
theorem lastOf_mem (c : AstNode) (cs : List AstNode) : lastOf c cs ∈ c :: cs := by
  match cs with
  | [] => simp [lastOf]
  | c' :: cs' =>
      have ih := lastOf_mem c' cs'
      simp only [lastOf]
      simp only [List.mem_cons] at ih ⊢
      tauto

/-- `lastOf c cs` computes `getLast?` of `c :: cs`. -/
theorem lastOf_eq_getLast? (c : AstNode) (cs : List AstNode) :
    (c :: cs).getLast? = some (lastOf c cs) := by
  match cs with
  | [] => simp [lastOf]
  | c' :: cs' =>
      have := lastOf_eq_getLast? c' cs'
      simp only [lastOf]
      rw [List.getLast?_cons_cons]
      exact this

/-- The last element of a non-empty child list is smaller than the list node. -/
theorem sizeOf_lastOf_lt_list (c0 : AstNode) (cs0 : List AstNode) (i : Nat)
    (imm : Bool) (len : Length) (h : Nat) (un : CatSet) :
    sizeOf (lastOf c0 cs0) < sizeOf (AstNode.list i imm len h (c0 :: cs0) un) := by
  have h1 := List.sizeOf_lt_of_mem (lastOf_mem c0 cs0)
  simp at h1 ⊢
  omega

/-- The last-child descent loop of `ListAstNode.canBeReused`: starting from the
node, repeatedly take the last child while the current node is a `List` with at
least one child. -/
def getLastChainTarget (n : AstNode) : AstNode :=
  match n with
  | .list i imm len h [] un => .list i imm len h [] un
  | .list _ _ _ _ (c :: cs) _ => getLastChainTarget (lastOf c cs)
  | n => n
termination_by sizeOf n
decreasing_by
  apply sizeOf_lastOf_lt_list

/-- `sizeOf` does not grow along the last-child descent. -/
theorem sizeOf_getLastChainTarget_le (n : AstNode) :
    sizeOf (getLastChainTarget n) ≤ sizeOf n := by
  match n with
  | .list i imm len h [] un => simp [getLastChainTarget]
  | .list i imm len h (c :: cs) un =>
      have h1 := sizeOf_lastOf_lt_list c cs i imm len h un
      have h2 := sizeOf_getLastChainTarget_le (lastOf c cs)
      simp only [getLastChainTarget]
      omega
  | .text i l => simp [getLastChainTarget]
  | .bracket i l => simp [getLastChainTarget]
  | .invalid i c l => simp [getLastChainTarget]
  | .pair i len cat ob ch cb un => simp [getLastChainTarget]
termination_by sizeOf n
decreasing_by
  apply sizeOf_lastOf_lt_list

/-- For a list with at least one child the descent target is strictly smaller. -/
theorem sizeOf_getLastChainTarget_lt (i : Nat) (imm : Bool) (len : Length) (h : Nat)
    (c0 : AstNode) (cs0 : List AstNode) (un : CatSet) :
    sizeOf (getLastChainTarget (.list i imm len h (c0 :: cs0) un)) <
      sizeOf (AstNode.list i imm len h (c0 :: cs0) un) := by
  have h1 := sizeOf_lastOf_lt_list c0 cs0 i imm len h un
  have h2 := sizeOf_getLastChainTarget_le (lastOf c0 cs0)
  simp only [getLastChainTarget]
  omega

/-- `canBeReused`, dispatched over the five node classes:
text is reusable iff the end line did not change; a bracket never is; an invalid
bracket is reusable iff the expected categories miss its singleton; a pair is
unreusable when unclosed or when the expected categories intersect its
`unopenedBrackets`; a list is trivially reusable when empty, unreusable when the
expected categories intersect its aggregate set, and otherwise delegates to the
node reached by the last-child descent. -/
def canBeReused (n : AstNode) (expectedClosingCategories : CatSet)
    (endLineDidChange : Bool) : Bool :=
  match n with
  | .text _ _ => !endLineDidChange
  | .bracket _ _ => false
  | .invalid _ cat _ =>
      !(CatSet.intersects expectedClosingCategories (CatSet.getEmpty.add cat))
  | .pair _ _ _ _ _ cb un =>
      match cb with
      | none => false
      | some _ =>
          if CatSet.intersects expectedClosingCategories un then false else true
  | .list i imm len h cs un =>
      match cs with
      | [] => true
      | c0 :: cs0 =>
          if CatSet.intersects expectedClosingCategories un then false
          else canBeReused (getLastChainTarget (.list i imm len h (c0 :: cs0) un))
            expectedClosingCategories endLineDidChange
termination_by sizeOf n
decreasing_by
  apply sizeOf_getLastChainTarget_lt

mutual

/-- `flattenLists`: leaves are returned as-is; a pair is rebuilt by
`PairAstNode.create` from flattened components; a list collects the flattening
of each child, splicing in the children of any child that flattens to a list,
and rebuilds with `ListAstNode.create`. -/
def flattenLists : AstNode → AstNode
  | .text i l => .text i l
  | .bracket i l => .bracket i l
  | .invalid i cat l => .invalid i cat l
  | .pair _ _ cat ob ch cb _ =>
      PairAstNode.create 0 cat (flattenLists ob) (flattenListsOpt ch)
        (flattenListsOpt cb)
  | .list _ _ _ _ cs _ => ListAstNode.create 0 (flattenChildren cs)

/-- `flattenLists` on an optional child (`x && x.flattenLists()`). -/
def flattenListsOpt : Option AstNode → Option AstNode
  | none => none
  | some x => some (flattenLists x)

/-- The item-collection loop of `ListAstNode.flattenLists`. -/
def flattenChildren : List AstNode → List AstNode
  | [] => []
  | c :: cs =>
      (match flattenLists c with
       | .list _ _ _ _ ncs _ => ncs
       | n => [n]) ++ flattenChildren cs

end

mutual

/-- `deepClone`, threading a fresh-id counter: the three immutable leaf classes
return `this` (same id, counter unchanged); a pair allocates a new `PairAstNode`
with deep-cloned components and the stored aggregates; a list allocates a new
mutable `ListAstNode` with deep-cloned children and the stored aggregates. -/
def deepClone : AstNode → Nat → AstNode × Nat
  | .text i l, c => (.text i l, c)
  | .bracket i l, c => (.bracket i l, c)
  | .invalid i cat l, c => (.invalid i cat l, c)
  | .pair _ len cat ob ch cb un, c =>
      let (ob', c1) := deepClone ob c
      let (ch', c2) := deepCloneOpt ch c1
      let (cb', c3) := deepCloneOpt cb c2
      (.pair c3 len cat ob' ch' cb' un, c3 + 1)
  | .list _ _ len h cs un, c =>
      let (cs', c') := deepCloneList cs c
      (.list c' false len h cs' un, c' + 1)

/-- `deepClone` on an optional child. -/
def deepCloneOpt : Option AstNode → Nat → Option AstNode × Nat
  | none, c => (none, c)
  | some x, c =>
      let (x', c') := deepClone x c
      (some x', c')

/-- The `clone` helper of `ast.ts`: deep-clones every element of the array. -/
def deepCloneList : List AstNode → Nat → List AstNode × Nat
  | [], c => ([], c)
  | x :: xs, c =>
      let (x', c1) := deepClone x c
      let (xs', c2) := deepCloneList xs c1
      (x' :: xs', c2)

end

mutual

/-- Structural equality of trees: same kind and same `length`, `listHeight`,
`category`, `unopenedBrackets` and recursively equal children; object ids and
the mutable/immutable distinction of lists are ignored. -/
def structEq : AstNode → AstNode → Bool
  | .text _ l, .text _ l' => l == l'
  | .bracket _ l, .bracket _ l' => l == l'
  | .invalid _ cat l, .invalid _ cat' l' => cat == cat' && l == l'
  | .pair _ len cat ob ch cb un, .pair _ len' cat' ob' ch' cb' un' =>
      len == len' && cat == cat' && structEq ob ob' && structEqOpt ch ch'
        && structEqOpt cb cb' && decide (un = un')
  | .list _ _ len h cs un, .list _ _ len' h' cs' un' =>
      len == len' && h == h' && structEqList cs cs' && decide (un = un')
  | _, _ => false

/-- Structural equality of optional children. -/
def structEqOpt : Option AstNode → Option AstNode → Bool
  | none, none => true
  | some x, some y => structEq x y
  | _, _ => false

/-- Structural equality of child lists. -/
def structEqList : List AstNode → List AstNode → Bool
  | [], [] => true
  | x :: xs, y :: ys => structEq x y && structEqList xs ys
  | _, _ => false

end

mutual

/-- All object ids occurring in a tree. -/
def nodeIds : AstNode → List Nat
  | .text i _ => [i]
  | .bracket i _ => [i]
  | .invalid i _ _ => [i]
  | .pair i _ _ ob ch cb _ => i :: (nodeIds ob ++ nodeIdsOpt ch ++ nodeIdsOpt cb)
  | .list i _ _ _ cs _ => i :: nodeIdsList cs

/-- Ids of an optional child. -/
def nodeIdsOpt : Option AstNode → List Nat
  | none => []
  | some x => nodeIds x

/-- Ids of a child list. -/
def nodeIdsList : List AstNode → List Nat
  | [] => []
  | x :: xs => nodeIds x ++ nodeIdsList xs

end

mutual

/-- Object ids of the composite (pair and list) nodes of a tree. -/
def innerIds : AstNode → List Nat
  | .pair i _ _ ob ch cb _ =>
      i :: (innerIds ob ++ innerIdsOpt ch ++ innerIdsOpt cb)
  | .list i _ _ _ cs _ => i :: innerIdsList cs
  | _ => []

/-- Composite-node ids of an optional child. -/
def innerIdsOpt : Option AstNode → List Nat
  | none => []
  | some x => innerIds x

/-- Composite-node ids of a child list. -/
def innerIdsList : List AstNode → List Nat
  | [] => []
  | x :: xs => innerIds x ++ innerIdsList xs

end

mutual

/-- The leaf nodes of a tree, in order, as values (ids included). -/
def leafNodes : AstNode → List AstNode
  | .pair _ _ _ ob ch cb _ => leafNodes ob ++ leafNodesOpt ch ++ leafNodesOpt cb
  | .list _ _ _ _ cs _ => leafNodesList cs
  | n => [n]

/-- Leaves of an optional child. -/
def leafNodesOpt : Option AstNode → List AstNode
  | none => []
  | some x => leafNodes x

/-- Leaves of a child list. -/
def leafNodesList : List AstNode → List AstNode
  | [] => []
  | x :: xs => leafNodes x ++ leafNodesList xs

end

/-- The left-to-right sum of the lengths of a child sequence, starting from the
zero length. -/
def sumLengths (cs : List AstNode) : Length :=
  cs.foldl (fun a c => lengthAdd a c.length) lengthZero

/-- The union of the `unopenedBrackets` sets of a child sequence, starting from
the empty set. -/
def unionUnopened (cs : List AstNode) : CatSet :=
  cs.foldl (fun a c => CatSet.merge a c.unopenedBrackets) CatSet.getEmpty

/-- `merge` is associative. -/
theorem CatSet.merge_assoc (a b c : CatSet) :
    (a.merge b).merge c = a.merge (b.merge c) := by
  obtain ⟨x⟩ := a
  obtain ⟨y⟩ := b
  obtain ⟨z⟩ := c
  simp [CatSet.merge, Nat.lor_assoc]

/-- The empty set is a left unit for `merge`. -/
theorem CatSet.getEmpty_merge (a : CatSet) : CatSet.getEmpty.merge a = a := by
  obtain ⟨x⟩ := a
  simp [CatSet.merge, CatSet.getEmpty, Nat.zero_or]

/-- The empty set is a right unit for `merge`. -/
theorem CatSet.merge_getEmpty (a : CatSet) : a.merge CatSet.getEmpty = a := by
  obtain ⟨x⟩ := a
  simp [CatSet.merge, CatSet.getEmpty, Nat.or_zero]

/-- Shifting the accumulator out of the length fold. -/
theorem foldl_lengthAdd_shift (xs : List AstNode) (i : Length) :
    xs.foldl (fun a c => lengthAdd a c.length) i = lengthAdd i (sumLengths xs) := by
  induction xs generalizing i with
  | nil => simp [sumLengths, lengthAdd, lengthZero]
  | cons x xs ih =>
      simp only [List.foldl_cons]
      rw [ih (lengthAdd i x.length)]
      have h2 : sumLengths (x :: xs) = lengthAdd x.length (sumLengths xs) := by
        simp only [sumLengths, List.foldl_cons]
        rw [ih (lengthAdd lengthZero x.length)]
        simp only [sumLengths, lengthAdd, lengthZero]
        rw [Nat.zero_add]
      rw [h2]
      simp only [lengthAdd]
      rw [Nat.add_assoc]

/-- Shifting the accumulator out of the category-set fold. -/
theorem foldl_merge_shift (xs : List AstNode) (i : CatSet) :
    xs.foldl (fun a c => CatSet.merge a c.unopenedBrackets) i
      = CatSet.merge i (unionUnopened xs) := by
  induction xs generalizing i with
  | nil =>
      simp only [List.foldl_nil, unionUnopened]
      rw [CatSet.merge_getEmpty]
  | cons x xs ih =>
      simp only [List.foldl_cons]
      rw [ih (CatSet.merge i x.unopenedBrackets)]
      have h2 : unionUnopened (x :: xs)
          = CatSet.merge x.unopenedBrackets (unionUnopened xs) := by
        simp only [unionUnopened, List.foldl_cons]
        rw [ih (CatSet.merge CatSet.getEmpty x.unopenedBrackets),
          CatSet.getEmpty_merge]
        rfl
      rw [h2, CatSet.merge_assoc]

/-- The source fold starting from the first item equals the zero-based sum. -/
theorem foldLengths_eq_sumLengths (x : AstNode) (xs : List AstNode) :
    foldLengths x xs = sumLengths (x :: xs) := by
  have h2 : sumLengths (x :: xs) = lengthAdd x.length (sumLengths xs) := by
    simp only [sumLengths, List.foldl_cons]
    rw [foldl_lengthAdd_shift xs (lengthAdd lengthZero x.length)]
    simp only [sumLengths, lengthAdd, lengthZero]
    rw [Nat.zero_add]
  rw [h2, foldLengths, foldl_lengthAdd_shift]

/-- The source fold starting from the first item equals the empty-based union. -/
theorem foldUnopened_eq_unionUnopened (x : AstNode) (xs : List AstNode) :
    foldUnopened x xs = unionUnopened (x :: xs) := by
  have h2 : unionUnopened (x :: xs)
      = CatSet.merge x.unopenedBrackets (unionUnopened xs) := by
    simp only [unionUnopened, List.foldl_cons]
    rw [foldl_merge_shift xs (CatSet.merge CatSet.getEmpty x.unopenedBrackets),
      CatSet.getEmpty_merge]
    rfl
  rw [h2, foldUnopened, foldl_merge_shift]

/-- `sumLengths` splits over append. -/
theorem sumLengths_append (a b : List AstNode) :
    sumLengths (a ++ b) = lengthAdd (sumLengths a) (sumLengths b) := by
  rw [sumLengths, List.foldl_append, foldl_lengthAdd_shift]
  rfl

/-- `unionUnopened` splits over append. -/
theorem unionUnopened_append (a b : List AstNode) :
    unionUnopened (a ++ b) = CatSet.merge (unionUnopened a) (unionUnopened b) := by
  rw [unionUnopened, List.foldl_append, foldl_merge_shift]
  rfl

/-- The static intern cache of `BracketAstNode`: an association from length
hashes to the interned node, together with the fresh-id counter modelling
allocation. -/
structure BracketCache where
  entries : List (Nat × AstNode)
  nextId : Nat

/-- Lookup in the intern cache (`Map.get`). -/
def lookupEntry : List (Nat × AstNode) → Nat → Option AstNode
  | [], _ => none
  | (k, n) :: es, key => if k = key then some n else lookupEntry es key

/-- `BracketAstNode.create`: return the cached instance for the length's hash
when present; otherwise allocate a fresh node and cache it. -/
def BracketAstNode.create (l : Length) (c : BracketCache) : AstNode × BracketCache :=
  match lookupEntry c.entries (lengthHash l) with
  | some n => (n, c)
  | none =>
      let node := AstNode.bracket c.nextId l
      (node, ⟨(lengthHash l, node) :: c.entries, c.nextId + 1⟩)

/-- A cache entry is well-formed: it stores a bracket node whose id is below the
fresh-id counter and whose key is the hash of its length. -/
def entryOK (bound : Nat) : Nat × AstNode → Bool
  | (k, .bracket i l) => decide (i < bound) && decide (lengthHash l = k)
  | _ => false

/-- No duplicates in a list of ids. -/
def idsDistinct : List Nat → Bool
  | [] => true
  | x :: xs => !(xs.contains x) && idsDistinct xs

/-- Well-formedness of the intern cache: every entry is well-formed and the
cached nodes have pairwise distinct ids. -/
def cacheWF (c : BracketCache) : Bool :=
  c.entries.all (entryOK c.nextId) && idsDistinct (c.entries.map (fun e => e.2.nodeId))

/-- The empty intern cache. -/
def emptyCache : BracketCache := ⟨[], 0⟩

/-- One of the four structural mutation operations of `ListAstNode`. -/
inductive MutationOp where
  | append (node : AstNode)
  | prepend (node : AstNode)
  | unappend
  | unprepend

/-- Apply a mutation operation to a node, keeping only the updated node (the
element returned by the two un-operations is dropped). -/
def applyOp : MutationOp → AstNode → Except String AstNode
  | .append node, n => appendChildOfSameHeight n node
  | .prepend node, n => prependChildOfSameHeight n node
  | .unappend, n => (unappendChild n).map (fun p => p.2)
  | .unprepend, n => (unprependChild n).map (fun p => p.2)

mutual

/-- The stored aggregates of every pair and list node in the tree agree with its
children: a pair's length is `computeLength` of its components and its set is
the child's set; a list's length is the sum of its children's lengths and its
set their union. -/
def aggOK : AstNode → Bool
  | .pair _ len _ ob ch cb un =>
      decide (len = computeLength ob ch cb)
        && decide (un = (match ch with
             | some c => c.unopenedBrackets
             | none => CatSet.getEmpty))
        && aggOK ob && aggOKOpt ch && aggOKOpt cb
  | .list _ _ len _ cs un =>
      decide (len = sumLengths cs) && decide (un = unionUnopened cs) && aggOKList cs
  | _ => true

/-- `aggOK` on an optional child. -/
def aggOKOpt : Option AstNode → Bool
  | none => true
  | some x => aggOK x

/-- `aggOK` on a child list. -/
def aggOKList : List AstNode → Bool
  | [] => true
  | x :: xs => aggOK x && aggOKList xs

end

mutual

/-- No list node of the tree has a list child. -/
def noListOfList : AstNode → Bool
  | .pair _ _ _ ob ch cb _ =>
      noListOfList ob && noListOfListOpt ch && noListOfListOpt cb
  | .list _ _ _ _ cs _ => nonListChildren cs
  | _ => true

/-- `noListOfList` on an optional child. -/
def noListOfListOpt : Option AstNode → Bool
  | none => true
  | some x => noListOfList x

/-- Every element is a non-list node satisfying `noListOfList`. -/
def nonListChildren : List AstNode → Bool
  | [] => true
  | c :: cs => !c.isList && noListOfList c && nonListChildren cs

end

/-- The node produced by `handleChildrenChanged`: it stores the given child
array; for a non-empty array the aggregates are the sum/union of the children,
and for an empty array the previous aggregates are kept. -/
theorem handleChildrenChanged_eq (i : Nat) (imm : Bool) (len : Length) (h : Nat)
    (cs : List AstNode) (un : CatSet) :
    (handleChildrenChanged i imm len h cs un).childrenList = cs
    ∧ (cs ≠ [] →
        (handleChildrenChanged i imm len h cs un).length = sumLengths cs
        ∧ (handleChildrenChanged i imm len h cs un).unopenedBrackets
            = unionUnopened cs)
    ∧ (cs = [] → handleChildrenChanged i imm len h cs un = .list i imm len h [] un) := by
  cases cs with
  | nil => simp [handleChildrenChanged, AstNode.childrenList]
  | cons x xs =>
      simp [handleChildrenChanged, AstNode.childrenList, AstNode.length,
        AstNode.unopenedBrackets, foldLengths_eq_sumLengths,
        foldUnopened_eq_unionUnopened]

/-- C1: `ListAstNode.canBeReused` returns true when the list has no children;
otherwise it returns false when the expected closing categories intersect the
aggregate `unopenedBrackets`; otherwise it returns `canBeReused` of the node
reached by repeatedly taking the last child while the current node is a list
with at least one child, applied to the same two arguments. -/
theorem list_canBeReused_spec (i : Nat) (imm : Bool) (len : Length) (h : Nat)
    (cs : List AstNode) (un e : CatSet) (b : Bool) :
    canBeReused (.list i imm len h cs un) e b
      = (match cs with
         | [] => true
         | _ :: _ =>
             if CatSet.intersects e un then false
             else canBeReused (getLastChainTarget (.list i imm len h cs un)) e b) := by
  cases cs <;> simp [canBeReused]

/-- C2: `PairAstNode.canBeReused` returns false when the closing bracket is
absent, regardless of the arguments; otherwise false when the expected closing
categories intersect the pair's `unopenedBrackets`; otherwise true. -/
theorem pair_canBeReused_spec (i : Nat) (len : Length) (cat : Nat) (ob : AstNode)
    (ch cb : Option AstNode) (un e : CatSet) (b : Bool) :
    canBeReused (.pair i len cat ob ch cb un) e b
      = (cb.isSome && !(CatSet.intersects e un)) := by
  cases cb with
  | none => simp [canBeReused]
  | some x =>
      cases hi : CatSet.intersects e un <;> simp [canBeReused, hi]

/-- C7: `ListAstNode.create` returns, for empty items, a list with height 0,
zero length and empty `unopenedBrackets`; for non-empty items, a list with
height `items[0].listHeight + 1`, length the left-to-right sum of the items'
lengths and `unopenedBrackets` the union of the items' sets; in both cases the
result is an `ImmutableListAstNode` exactly when the flag is set. -/
theorem list_create_spec (id : Nat) (items : List AstNode) (imm : Bool) :
    (ListAstNode.create id items imm).kind = AstNodeKind.List
    ∧ (ListAstNode.create id items imm).isImmutableList = imm
    ∧ (ListAstNode.create id items imm).length = sumLengths items
    ∧ (ListAstNode.create id items imm).unopenedBrackets = unionUnopened items
    ∧ (ListAstNode.create id items imm).listHeight
        = (match items with
           | [] => 0
           | x :: _ => x.listHeight + 1) := by
  cases items with
  | nil =>
      simp [ListAstNode.create, AstNode.kind, AstNode.isImmutableList,
        AstNode.length, AstNode.unopenedBrackets, AstNode.listHeight,
        sumLengths, unionUnopened]
  | cons x xs =>
      simp [ListAstNode.create, AstNode.kind, AstNode.isImmutableList,
        AstNode.length, AstNode.unopenedBrackets, AstNode.listHeight,
        foldLengths_eq_sumLengths, foldUnopened_eq_unionUnopened]

/-- C3 counterexample: `unappendChild` on the mutable singleton list built by
`ListAstNode.create` succeeds and leaves a list with no children whose stored
length is still 1, not the zero length, and the claimed equality fails. -/
theorem mutation_aggregates_cex :
    unappendChild (ListAstNode.create 0 [AstNode.text 1 1])
      = Except.ok (some (AstNode.text 1 1),
          AstNode.list 0 false 1 1 [] CatSet.getEmpty)
    ∧ (AstNode.list 0 false 1 1 [] CatSet.getEmpty).childrenList = []
    ∧ (AstNode.list 0 false 1 1 [] CatSet.getEmpty).length = 1
    ∧ sumLengths [] = lengthZero
    ∧ (1 : Length) ≠ lengthZero := by
  refine ⟨rfl, rfl, rfl, rfl, by decide⟩

/-- C3 (amended): after a mutation operation completes on a mutable list, the
stored length and `unopenedBrackets` equal the sum/union over the current
children whenever at least one child remains; when the operation leaves the list
with no children they keep their previous values. -/
theorem mutation_aggregates_spec (op : MutationOp) (i : Nat) (len : Length)
    (h : Nat) (cs : List AstNode) (un : CatSet) (m : AstNode)
    (hm : applyOp op (.list i false len h cs un) = .ok m) :
    (m.childrenList ≠ [] →
      m.length = sumLengths m.childrenList
      ∧ m.unopenedBrackets = unionUnopened m.childrenList)
    ∧ (m.childrenList = [] → m.length = len ∧ m.unopenedBrackets = un) := by
  have key : ∀ cs' : List AstNode, m = handleChildrenChanged i false len h cs' un →
      (m.childrenList ≠ [] →
        m.length = sumLengths m.childrenList
        ∧ m.unopenedBrackets = unionUnopened m.childrenList)
      ∧ (m.childrenList = [] → m.length = len ∧ m.unopenedBrackets = un) := by
    intro cs' hm'
    obtain ⟨hch, hne, hnil⟩ := handleChildrenChanged_eq i false len h cs' un
    subst hm'
    rw [hch]
    refine ⟨fun hcs => hne hcs, fun hcs => ?_⟩
    subst hcs
    rw [hnil rfl]
    exact ⟨rfl, rfl⟩
  cases op with
  | append node =>
      simp only [applyOp, appendChildOfSameHeight, if_neg, Bool.false_eq_true,
        not_false_eq_true, reduceIte, Except.ok.injEq] at hm
      exact key (cs ++ [node]) hm.symm
  | prepend node =>
      simp only [applyOp, prependChildOfSameHeight, Bool.false_eq_true,
        not_false_eq_true, reduceIte, Except.ok.injEq] at hm
      exact key (node :: cs) hm.symm
  | unappend =>
      simp only [applyOp, unappendChild, Bool.false_eq_true, not_false_eq_true,
        reduceIte, Except.map, Except.ok.injEq] at hm
      exact key cs.dropLast hm.symm
  | unprepend =>
      simp only [applyOp, unprependChild, Bool.false_eq_true, not_false_eq_true,
        reduceIte, Except.map, Except.ok.injEq] at hm
      exact key cs.tail hm.symm

/-- C3 witness: appending a text child to an empty mutable list. -/
theorem mutation_aggregates_spec_witness :
    applyOp (.append (AstNode.text 5 2)) (AstNode.list 0 false 0 1 [] CatSet.getEmpty)
      = Except.ok (AstNode.list 0 false 2 1 [AstNode.text 5 2] CatSet.getEmpty)
    ∧ (((AstNode.list 0 false 2 1 [AstNode.text 5 2] CatSet.getEmpty).childrenList ≠ [] →
        (AstNode.list 0 false 2 1 [AstNode.text 5 2] CatSet.getEmpty).length
          = sumLengths (AstNode.list 0 false 2 1 [AstNode.text 5 2] CatSet.getEmpty).childrenList
        ∧ (AstNode.list 0 false 2 1 [AstNode.text 5 2] CatSet.getEmpty).unopenedBrackets
          = unionUnopened (AstNode.list 0 false 2 1 [AstNode.text 5 2] CatSet.getEmpty).childrenList)
      ∧ ((AstNode.list 0 false 2 1 [AstNode.text 5 2] CatSet.getEmpty).childrenList = [] →
        (AstNode.list 0 false 2 1 [AstNode.text 5 2] CatSet.getEmpty).length = 0
        ∧ (AstNode.list 0 false 2 1 [AstNode.text 5 2] CatSet.getEmpty).unopenedBrackets = CatSet.getEmpty)) :=
  ⟨rfl, mutation_aggregates_spec (.append (AstNode.text 5 2)) 0 0 1 [] CatSet.getEmpty
    (AstNode.list 0 false 2 1 [AstNode.text 5 2] CatSet.getEmpty) rfl⟩

/-- C4 counterexample: on an immutable singleton list every mutation fails with
the "this instance is immutable" error; the identical `unappendChild` on the
node returned by `toMutable` succeeds but leaves a childless list whose stored
length is still 1, inconsistent with the empty child sequence. -/
theorem immutable_mutation_cex :
    unappendChild (AstNode.list 0 true 1 1 [AstNode.text 1 1] CatSet.getEmpty)
      = Except.error immutableError
    ∧ (AstNode.toMutable (AstNode.list 0 true 1 1 [AstNode.text 1 1] CatSet.getEmpty) 3)
      = (AstNode.list 3 false 1 1 [AstNode.text 1 1] CatSet.getEmpty, 4)
    ∧ unappendChild (AstNode.list 3 false 1 1 [AstNode.text 1 1] CatSet.getEmpty)
      = Except.ok (some (AstNode.text 1 1),
          AstNode.list 3 false 1 1 [] CatSet.getEmpty)
    ∧ (AstNode.list 3 false 1 1 [] CatSet.getEmpty).childrenList = []
    ∧ (AstNode.list 3 false 1 1 [] CatSet.getEmpty).length = 1
    ∧ sumLengths [] = lengthZero
    ∧ (1 : Length) ≠ lengthZero := by
  refine ⟨rfl, rfl, rfl, rfl, rfl, rfl, by decide⟩

/-- C4 (amended): every mutation operation on an immutable list fails fatally
with the "this instance is immutable" error before any change; the identical
operation on the node returned by its `toMutable` succeeds, and the resulting
aggregates equal the sum/union over the new child sequence whenever it is
non-empty, keeping their previous values when it is empty. -/
theorem immutable_mutation_spec (op : MutationOp) (i : Nat) (len : Length)
    (h : Nat) (cs : List AstNode) (un : CatSet) (c : Nat) :
    applyOp op (.list i true len h cs un) = .error immutableError
    ∧ (AstNode.toMutable (.list i true len h cs un) c).1
        = .list c false len h cs un
    ∧ ∃ m, applyOp op (.list c false len h cs un) = .ok m
        ∧ (m.childrenList ≠ [] →
            m.length = sumLengths m.childrenList
            ∧ m.unopenedBrackets = unionUnopened m.childrenList)
        ∧ (m.childrenList = [] → m.length = len ∧ m.unopenedBrackets = un) := by
  refine ⟨?_, by simp [AstNode.toMutable], ?_⟩
  · cases op <;>
      simp [applyOp, appendChildOfSameHeight, prependChildOfSameHeight,
        unappendChild, unprependChild, Except.map]
  · have key : ∀ (j : Nat) (cs' : List AstNode),
        (((handleChildrenChanged j false len h cs' un).childrenList ≠ []) →
          (handleChildrenChanged j false len h cs' un).length
            = sumLengths (handleChildrenChanged j false len h cs' un).childrenList
          ∧ (handleChildrenChanged j false len h cs' un).unopenedBrackets
            = unionUnopened (handleChildrenChanged j false len h cs' un).childrenList)
        ∧ ((handleChildrenChanged j false len h cs' un).childrenList = [] →
          (handleChildrenChanged j false len h cs' un).length = len
          ∧ (handleChildrenChanged j false len h cs' un).unopenedBrackets = un) := by
      intro j cs'
      obtain ⟨hch, hne, hnil⟩ := handleChildrenChanged_eq j false len h cs' un
      rw [hch]
      refine ⟨fun hcs => hne hcs, fun hcs => ?_⟩
      subst hcs
      rw [hnil rfl]
      exact ⟨rfl, rfl⟩
    cases op with
    | append node =>
        refine ⟨handleChildrenChanged c false len h (cs ++ [node]) un, ?_, key c _⟩
        simp [applyOp, appendChildOfSameHeight]
    | prepend node =>
        refine ⟨handleChildrenChanged c false len h (node :: cs) un, ?_, key c _⟩
        simp [applyOp, prependChildOfSameHeight]
    | unappend =>
        refine ⟨handleChildrenChanged c false len h cs.dropLast un, ?_, key c _⟩
        simp [applyOp, unappendChild, Except.map]
    | unprepend =>
        refine ⟨handleChildrenChanged c false len h cs.tail un, ?_, key c _⟩
        simp [applyOp, unprependChild, Except.map]

/-- Concrete instantiation of the amended C4 statement at the empty immutable
list: the mutation errors there and succeeds on the `toMutable` copy. -/
theorem immutable_mutation_spec_witness :
    applyOp .unappend (AstNode.list 0 true 0 0 [] CatSet.getEmpty)
      = Except.error immutableError
    ∧ (AstNode.toMutable (AstNode.list 0 true 0 0 [] CatSet.getEmpty) 7).1
      = AstNode.list 7 false 0 0 [] CatSet.getEmpty
    ∧ ∃ m, applyOp .unappend (AstNode.list 7 false 0 0 [] CatSet.getEmpty) = .ok m
        ∧ (m.childrenList ≠ [] →
            m.length = sumLengths m.childrenList
            ∧ m.unopenedBrackets = unionUnopened m.childrenList)
        ∧ (m.childrenList = [] → m.length = 0 ∧ m.unopenedBrackets = CatSet.getEmpty) :=
  immutable_mutation_spec .unappend 0 0 0 [] CatSet.getEmpty 7

/-- C10: `deepClone` of a list node, including the immutable variant, returns a
mutable `ListAstNode`: it is a list, it is not immutable, and every structural
mutation operation on the clone succeeds. -/
theorem deepClone_list_mutable_spec (i : Nat) (imm : Bool) (len : Length)
    (h : Nat) (cs : List AstNode) (un : CatSet) (c : Nat) (op : MutationOp) :
    (deepClone (.list i imm len h cs un) c).1.isList = true
    ∧ (deepClone (.list i imm len h cs un) c).1.isImmutableList = false
    ∧ ∃ m, applyOp op (deepClone (.list i imm len h cs un) c).1 = .ok m := by
  have hd : deepClone (.list i imm len h cs un) c
      = (.list (deepCloneList cs c).2 false len h (deepCloneList cs c).1 un,
          (deepCloneList cs c).2 + 1) := by
    simp [deepClone]
  rw [hd]
  refine ⟨rfl, rfl, ?_⟩
  cases op with
  | append node =>
      exact ⟨handleChildrenChanged (deepCloneList cs c).2 false len h
        ((deepCloneList cs c).1 ++ [node]) un, by simp [applyOp, appendChildOfSameHeight]⟩
  | prepend node =>
      exact ⟨handleChildrenChanged (deepCloneList cs c).2 false len h
        (node :: (deepCloneList cs c).1) un, by simp [applyOp, prependChildOfSameHeight]⟩
  | unappend =>
      exact ⟨handleChildrenChanged (deepCloneList cs c).2 false len h
        (deepCloneList cs c).1.dropLast un, by simp [applyOp, unappendChild, Except.map]⟩
  | unprepend =>
      exact ⟨handleChildrenChanged (deepCloneList cs c).2 false len h
        (deepCloneList cs c).1.tail un, by simp [applyOp, unprependChild, Except.map]⟩

/-- C9: on an `ImmutableListAstNode`, `toMutable` allocates a new mutable
`ListAstNode` with the same `length`, `listHeight` and `unopenedBrackets` and
with exactly the same child node instances in the same order (the child array is
shallow-copied, not cloned); its id is fresh, so it is a different instance from
every node of the original tree.  On every other node (any non-list node and any
mutable list) `toMutable` returns the node itself. -/
theorem toMutable_spec (n : AstNode) (c : Nat)
    (hfresh : ∀ j ∈ nodeIds n, j < c) :
    (n.isImmutableList = true →
      (n.toMutable c).1
          = AstNode.list c false n.length n.listHeight n.childrenList
              n.unopenedBrackets
      ∧ (n.toMutable c).2 = c + 1
      ∧ (n.toMutable c).1.nodeId ∉ nodeIds n)
    ∧ (n.isImmutableList = false → n.toMutable c = (n, c)) := by
  cases n with
  | list i imm len h cs un =>
      cases imm with
      | true =>
          refine ⟨fun _ => ⟨rfl, rfl, ?_⟩, fun hco => by simp [AstNode.isImmutableList] at hco⟩
          intro hmem
          have hlt := hfresh _ hmem
          simp [AstNode.toMutable, AstNode.nodeId] at hlt
      | false =>
          exact ⟨fun hco => by simp [AstNode.isImmutableList] at hco,
            fun _ => rfl⟩
  | text i l =>
      exact ⟨fun hco => by simp [AstNode.isImmutableList] at hco, fun _ => rfl⟩
  | bracket i l =>
      exact ⟨fun hco => by simp [AstNode.isImmutableList] at hco, fun _ => rfl⟩
  | invalid i cat l =>
      exact ⟨fun hco => by simp [AstNode.isImmutableList] at hco, fun _ => rfl⟩
  | pair i len cat ob ch cb un =>
      exact ⟨fun hco => by simp [AstNode.isImmutableList] at hco, fun _ => rfl⟩

/-- Concrete instantiation of C9 at a two-leaf immutable list with fresh
counter 9. -/
theorem toMutable_spec_witness :
    (∀ j ∈ nodeIds (AstNode.list 0 true 2 1 [AstNode.text 1 1, AstNode.text 2 1]
        CatSet.getEmpty), j < 9)
    ∧ (((AstNode.list 0 true 2 1 [AstNode.text 1 1, AstNode.text 2 1]
          CatSet.getEmpty).isImmutableList = true →
        ((AstNode.list 0 true 2 1 [AstNode.text 1 1, AstNode.text 2 1]
            CatSet.getEmpty).toMutable 9).1
            = AstNode.list 9 false
                (AstNode.list 0 true 2 1 [AstNode.text 1 1, AstNode.text 2 1]
                  CatSet.getEmpty).length
                (AstNode.list 0 true 2 1 [AstNode.text 1 1, AstNode.text 2 1]
                  CatSet.getEmpty).listHeight
                (AstNode.list 0 true 2 1 [AstNode.text 1 1, AstNode.text 2 1]
                  CatSet.getEmpty).childrenList
                (AstNode.list 0 true 2 1 [AstNode.text 1 1, AstNode.text 2 1]
                  CatSet.getEmpty).unopenedBrackets
        ∧ ((AstNode.list 0 true 2 1 [AstNode.text 1 1, AstNode.text 2 1]
            CatSet.getEmpty).toMutable 9).2 = 9 + 1
        ∧ ((AstNode.list 0 true 2 1 [AstNode.text 1 1, AstNode.text 2 1]
            CatSet.getEmpty).toMutable 9).1.nodeId
            ∉ nodeIds (AstNode.list 0 true 2 1 [AstNode.text 1 1, AstNode.text 2 1]
                CatSet.getEmpty))
      ∧ ((AstNode.list 0 true 2 1 [AstNode.text 1 1, AstNode.text 2 1]
          CatSet.getEmpty).isImmutableList = false →
        (AstNode.list 0 true 2 1 [AstNode.text 1 1, AstNode.text 2 1]
          CatSet.getEmpty).toMutable 9
          = (AstNode.list 0 true 2 1 [AstNode.text 1 1, AstNode.text 2 1]
              CatSet.getEmpty, 9))) :=
  ⟨by simp [nodeIds, nodeIdsList], toMutable_spec _ 9 (by simp [nodeIds, nodeIdsList])⟩

mutual

/-- `deepClone` produces a structurally equal tree, only consumes fresh ids for
its pair/list allocations, and returns the leaf instances unchanged. -/
theorem deepClone_props (n : AstNode) (c : Nat) :
    structEq (deepClone n c).1 n = true
    ∧ c ≤ (deepClone n c).2
    ∧ (∀ j ∈ innerIds (deepClone n c).1, c ≤ j ∧ j < (deepClone n c).2)
    ∧ leafNodes (deepClone n c).1 = leafNodes n := by
  match n with
  | .text i l =>
      refine ⟨by simp [deepClone, structEq], by simp [deepClone], ?_, rfl⟩
      intro j hj
      simp [deepClone, innerIds] at hj
  | .bracket i l =>
      refine ⟨by simp [deepClone, structEq], by simp [deepClone], ?_, rfl⟩
      intro j hj
      simp [deepClone, innerIds] at hj
  | .invalid i cat l =>
      refine ⟨by simp [deepClone, structEq], by simp [deepClone], ?_, rfl⟩
      intro j hj
      simp [deepClone, innerIds] at hj
  | .pair i len cat ob ch cb un =>
      obtain ⟨hs1, hb1, hi1, hl1⟩ := deepClone_props ob c
      cases hob : deepClone ob c with
      | mk ob' c1 =>
          rw [hob] at hs1 hb1 hi1 hl1
          obtain ⟨hs2, hb2, hi2, hl2⟩ := deepClone_props_opt ch c1
          cases hch : deepCloneOpt ch c1 with
          | mk ch' c2 =>
              rw [hch] at hs2 hb2 hi2 hl2
              obtain ⟨hs3, hb3, hi3, hl3⟩ := deepClone_props_opt cb c2
              cases hcb : deepCloneOpt cb c2 with
              | mk cb' c3 =>
                  rw [hcb] at hs3 hb3 hi3 hl3
                  have hd : deepClone (.pair i len cat ob ch cb un) c
                      = (.pair c3 len cat ob' ch' cb' un, c3 + 1) := by
                    simp [deepClone, hob, hch, hcb]
                  rw [hd]
                  refine ⟨by simp [structEq, hs1, hs2, hs3], by omega, ?_, ?_⟩
                  · intro j hj
                    simp only [innerIds, List.mem_cons, List.mem_append] at hj
                    rcases hj with hj | (hj | hj) | hj
                    · subst hj
                      constructor <;> omega
                    · have := hi1 j hj
                      constructor <;> omega
                    · have := hi2 j hj
                      constructor <;> omega
                    · have := hi3 j hj
                      constructor <;> omega
                  · simp [leafNodes, hl1, hl2, hl3]
  | .list i imm len h cs un =>
      obtain ⟨hs1, hb1, hi1, hl1⟩ := deepClone_props_list cs c
      cases hcl : deepCloneList cs c with
      | mk cs' c' =>
          rw [hcl] at hs1 hb1 hi1 hl1
          have hd : deepClone (.list i imm len h cs un) c
              = (.list c' false len h cs' un, c' + 1) := by
            simp [deepClone, hcl]
          rw [hd]
          refine ⟨by simp [structEq, hs1], by omega, ?_, ?_⟩
          · intro j hj
            simp only [innerIds, List.mem_cons] at hj
            rcases hj with hj | hj
            · subst hj
              constructor <;> omega
            · have := hi1 j hj
              constructor <;> omega
          · simp [leafNodes, hl1]

/-- `deepClone_props` for an optional child. -/
theorem deepClone_props_opt (o : Option AstNode) (c : Nat) :
    structEqOpt (deepCloneOpt o c).1 o = true
    ∧ c ≤ (deepCloneOpt o c).2
    ∧ (∀ j ∈ innerIdsOpt (deepCloneOpt o c).1, c ≤ j ∧ j < (deepCloneOpt o c).2)
    ∧ leafNodesOpt (deepCloneOpt o c).1 = leafNodesOpt o := by
  match o with
  | none =>
      refine ⟨rfl, Nat.le_refl c, ?_, rfl⟩
      intro j hj
      simp [deepCloneOpt, innerIdsOpt] at hj
  | some x =>
      obtain ⟨hs, hb, hi, hl⟩ := deepClone_props x c
      cases hx : deepClone x c with
      | mk x' c' =>
          rw [hx] at hs hb hi hl
          have hd : deepCloneOpt (some x) c = (some x', c') := by
            simp [deepCloneOpt, hx]
          rw [hd]
          exact ⟨by simp [structEqOpt, hs], hb,
            by intro j hj; exact hi j (by simpa [innerIdsOpt] using hj),
            by simp [leafNodesOpt, hl]⟩

/-- `deepClone_props` for a child list. -/
theorem deepClone_props_list (cs : List AstNode) (c : Nat) :
    structEqList (deepCloneList cs c).1 cs = true
    ∧ c ≤ (deepCloneList cs c).2
    ∧ (∀ j ∈ innerIdsList (deepCloneList cs c).1, c ≤ j ∧ j < (deepCloneList cs c).2)
    ∧ leafNodesList (deepCloneList cs c).1 = leafNodesList cs := by
  match cs with
  | [] =>
      refine ⟨rfl, Nat.le_refl c, ?_, rfl⟩
      intro j hj
      simp [deepCloneList, innerIdsList] at hj
  | x :: xs =>
      obtain ⟨hs1, hb1, hi1, hl1⟩ := deepClone_props x c
      cases hx : deepClone x c with
      | mk x' c1 =>
          rw [hx] at hs1 hb1 hi1 hl1
          obtain ⟨hs2, hb2, hi2, hl2⟩ := deepClone_props_list xs c1
          cases hxs : deepCloneList xs c1 with
          | mk xs' c2 =>
              rw [hxs] at hs2 hb2 hi2 hl2
              have hd : deepCloneList (x :: xs) c = (x' :: xs', c2) := by
                simp [deepCloneList, hx, hxs]
              rw [hd]
              refine ⟨by simp [structEqList, hs1, hs2], by omega, ?_, ?_⟩
              · intro j hj
                simp only [innerIdsList, List.mem_append] at hj
                rcases hj with hj | hj
                · have := hi1 j hj
                  constructor <;> omega
                · have := hi2 j hj
                  constructor <;> omega
              · simp [leafNodesList, hl1, hl2]

end

/-- C5 counterexample: `deepClone` of a text leaf returns the very same
instance (the leaf classes return `this`), so a node is shared between the
clone and the original and the claim that no node instance is shared fails. -/
theorem deepClone_shares_leaf_cex :
    deepClone (AstNode.text 7 3) 10 = (AstNode.text 7 3, 10)
    ∧ (deepClone (AstNode.text 7 3) 10).1.nodeId ∈ nodeIds (AstNode.text 7 3) := by
  exact ⟨rfl, by simp [deepClone, nodeIds, AstNode.nodeId]⟩

/-- C5 (amended): `deepClone` returns a structurally equal tree (same kind,
`length`, `listHeight`, `category`, `unopenedBrackets` and recursively equal
children); every pair and list node of the clone is freshly allocated — its id
occurs nowhere in the original — while leaf nodes are returned as-is, so they
remain shared with the original. -/
theorem deepClone_spec (n : AstNode) (c : Nat)
    (hfresh : ∀ j ∈ nodeIds n, j < c) :
    structEq (deepClone n c).1 n = true
    ∧ (∀ j ∈ innerIds (deepClone n c).1, j ∉ nodeIds n)
    ∧ leafNodes (deepClone n c).1 = leafNodes n := by
  obtain ⟨h1, h2, h3, h4⟩ := deepClone_props n c
  refine ⟨h1, ?_, h4⟩
  intro j hj hmem
  have hge := (h3 j hj).1
  have hlt := hfresh j hmem
  omega

/-- Concrete instantiation of the amended C5 statement at a singleton list. -/
theorem deepClone_spec_witness :
    (∀ j ∈ nodeIds (AstNode.list 0 false 1 1 [AstNode.text 1 1] CatSet.getEmpty),
      j < 5)
    ∧ (structEq
          (deepClone (AstNode.list 0 false 1 1 [AstNode.text 1 1] CatSet.getEmpty) 5).1
          (AstNode.list 0 false 1 1 [AstNode.text 1 1] CatSet.getEmpty) = true
      ∧ (∀ j ∈ innerIds
            (deepClone (AstNode.list 0 false 1 1 [AstNode.text 1 1] CatSet.getEmpty) 5).1,
          j ∉ nodeIds (AstNode.list 0 false 1 1 [AstNode.text 1 1] CatSet.getEmpty))
      ∧ leafNodes
          (deepClone (AstNode.list 0 false 1 1 [AstNode.text 1 1] CatSet.getEmpty) 5).1
          = leafNodes (AstNode.list 0 false 1 1 [AstNode.text 1 1] CatSet.getEmpty)) :=
  ⟨by simp [nodeIds, nodeIdsList],
    deepClone_spec (AstNode.list 0 false 1 1 [AstNode.text 1 1] CatSet.getEmpty) 5
      (by simp [nodeIds, nodeIdsList])⟩

/-- A successful cache lookup returns a stored entry. -/
theorem lookupEntry_mem (es : List (Nat × AstNode)) (k : Nat) (n : AstNode)
    (h : lookupEntry es k = some n) : (k, n) ∈ es := by
  induction es with
  | nil => simp [lookupEntry] at h
  | cons e es ih =>
      obtain ⟨k', n'⟩ := e
      by_cases hk : k' = k
      · subst hk
        simp [lookupEntry] at h
        subst h
        exact List.mem_cons_self _ _
      · simp only [lookupEntry, if_neg hk] at h
        exact List.mem_cons_of_mem _ (ih h)

/-- In a list of entries with pairwise distinct node ids, two stored entries
with the same node id are the same entry. -/
theorem distinctIds_inj (es : List (Nat × AstNode))
    (hd : idsDistinct (es.map (fun e => e.2.nodeId)) = true) :
    ∀ a ∈ es, ∀ b ∈ es, a.2.nodeId = b.2.nodeId → a = b := by
  induction es with
  | nil =>
      intro a ha
      simp at ha
  | cons e es ih =>
      simp only [List.map_cons, idsDistinct, Bool.and_eq_true,
        Bool.not_eq_true'] at hd
      obtain ⟨hcont, hd'⟩ := hd
      have hnotmem : e.2.nodeId ∉ es.map (fun x => x.2.nodeId) := by
        intro hmem
        have helem := List.elem_eq_true_of_mem hmem
        simp only [List.contains] at hcont
        rw [helem] at hcont
        cases hcont
      intro a ha b hb heq
      simp only [List.mem_cons] at ha hb
      rcases ha with ha | ha <;> rcases hb with hb | hb
      · rw [ha, hb]
      · exfalso
        apply hnotmem
        rw [ha] at heq
        rw [heq]
        exact List.mem_map_of_mem _ hb
      · exfalso
        apply hnotmem
        rw [hb] at heq
        rw [← heq]
        exact List.mem_map_of_mem _ ha
      · exact ih hd' a ha b hb heq

/-- A well-formed entry is a bracket node with id below the counter whose key is
the hash of its length. -/
theorem entryOK_elim (bound k : Nat) (n : AstNode)
    (h : entryOK bound (k, n) = true) :
    ∃ i l, n = AstNode.bracket i l ∧ i < bound ∧ lengthHash l = k := by
  cases n with
  | bracket i l =>
      simp only [entryOK, Bool.and_eq_true, decide_eq_true_eq] at h
      exact ⟨i, l, rfl, h.1, h.2⟩
  | text i l => simp [entryOK] at h
  | invalid i c l => simp [entryOK] at h
  | pair i len cat ob ch cb un => simp [entryOK] at h
  | list i imm len ht cs un => simp [entryOK] at h

/-- C6: on a well-formed intern cache, two successive `BracketAstNode.create`
calls return the same shared instance when the length values are equal, and
distinct instances when the length values differ. -/
theorem bracket_create_interning (cache : BracketCache) (l l' : Length)
    (hwf : cacheWF cache = true) :
    (l = l' →
      (BracketAstNode.create l' (BracketAstNode.create l cache).2).1
        = (BracketAstNode.create l cache).1)
    ∧ (l ≠ l' →
      (BracketAstNode.create l' (BracketAstNode.create l cache).2).1
        ≠ (BracketAstNode.create l cache).1) := by
  obtain ⟨entries, nextId⟩ := cache
  simp only [cacheWF, Bool.and_eq_true, List.all_eq_true] at hwf
  obtain ⟨hall, hdist⟩ := hwf
  constructor
  · intro heq
    subst heq
    cases hl : lookupEntry entries (lengthHash l) with
    | some n1 => simp [BracketAstNode.create, hl]
    | none => simp [BracketAstNode.create, hl, lookupEntry]
  · intro hne
    have hkey : lengthHash l ≠ lengthHash l' := by
      simpa [lengthHash] using hne
    cases hl : lookupEntry entries (lengthHash l) with
    | some n1 =>
        have hm1 := lookupEntry_mem entries _ _ hl
        obtain ⟨i1, l1, hn1, hi1, _⟩ := entryOK_elim nextId _ _ (hall _ hm1)
        cases hl2 : lookupEntry entries (lengthHash l') with
        | some n2 =>
            have hm2 := lookupEntry_mem entries _ _ hl2
            simp only [BracketAstNode.create, hl, hl2]
            intro hcontra
            have hpair := distinctIds_inj entries hdist _ hm2 _ hm1
              (by rw [hcontra])
            have hk := congrArg Prod.fst hpair
            exact hkey (congrArg id hk).symm
        | none =>
            simp only [BracketAstNode.create, hl, hl2]
            subst hn1
            intro hcontra
            simp only [AstNode.bracket.injEq] at hcontra
            omega
    | none =>
        cases hl2 : lookupEntry entries (lengthHash l') with
        | some n2 =>
            have hm2 := lookupEntry_mem entries _ _ hl2
            obtain ⟨i2, l2, hn2, hi2, _⟩ := entryOK_elim nextId _ _ (hall _ hm2)
            simp only [BracketAstNode.create, hl, lookupEntry,
              if_neg hkey, hl2]
            subst hn2
            intro hcontra
            simp only [AstNode.bracket.injEq] at hcontra
            omega
        | none =>
            simp only [BracketAstNode.create, hl, lookupEntry,
              if_neg hkey, hl2]
            intro hcontra
            simp only [AstNode.bracket.injEq] at hcontra
            omega

/-- Concrete instantiation of C6 on the empty cache with lengths 1 and 2. -/
theorem bracket_create_interning_witness :
    cacheWF emptyCache = true
    ∧ ((1 = 2 →
        (BracketAstNode.create 2 (BracketAstNode.create 1 emptyCache).2).1
          = (BracketAstNode.create 1 emptyCache).1)
      ∧ ((1 : Length) ≠ 2 →
        (BracketAstNode.create 2 (BracketAstNode.create 1 emptyCache).2).1
          ≠ (BracketAstNode.create 1 emptyCache).1)) :=
  ⟨rfl, bracket_create_interning emptyCache 1 2 rfl⟩

/-- `sumLengths` over a cons. -/
theorem sumLengths_cons (x : AstNode) (xs : List AstNode) :
    sumLengths (x :: xs) = lengthAdd x.length (sumLengths xs) := by
  rw [← foldLengths_eq_sumLengths, foldLengths, foldl_lengthAdd_shift]

/-- `unionUnopened` over a cons. -/
theorem unionUnopened_cons (x : AstNode) (xs : List AstNode) :
    unionUnopened (x :: xs) = CatSet.merge x.unopenedBrackets (unionUnopened xs) := by
  rw [← foldUnopened_eq_unionUnopened, foldUnopened, foldl_merge_shift]

/-- `sumLengths` of a singleton. -/
theorem sumLengths_singleton (m : AstNode) : sumLengths [m] = m.length := by
  simp [sumLengths, lengthAdd, lengthZero]

/-- `unionUnopened` of a singleton. -/
theorem unionUnopened_singleton (m : AstNode) :
    unionUnopened [m] = m.unopenedBrackets := by
  rw [unionUnopened_cons]
  have : unionUnopened [] = CatSet.getEmpty := rfl
  rw [this, CatSet.merge_getEmpty]

/-- `nonListChildren` splits over append. -/
theorem nonListChildren_append (a b : List AstNode) :
    nonListChildren (a ++ b) = (nonListChildren a && nonListChildren b) := by
  induction a with
  | nil => simp [nonListChildren]
  | cons x xs ih =>
      simp only [List.cons_append, nonListChildren, List.append_eq, ih,
        Bool.and_assoc]

/-- `aggOKList` splits over append. -/
theorem aggOKList_append (a b : List AstNode) :
    aggOKList (a ++ b) = (aggOKList a && aggOKList b) := by
  induction a with
  | nil => simp [aggOKList]
  | cons x xs ih =>
      simp only [List.cons_append, aggOKList, List.append_eq, ih,
        Bool.and_assoc]

/-- `ListAstNode.create` written with the zero-based aggregate folds. -/
theorem create_fields (id : Nat) (items : List AstNode) (imm : Bool) :
    ListAstNode.create id items imm
      = .list id imm (sumLengths items)
          (match items with
           | [] => 0
           | x :: _ => x.listHeight + 1)
          items (unionUnopened items) := by
  cases items with
  | nil => rfl
  | cons x xs =>
      simp [ListAstNode.create, foldLengths_eq_sumLengths,
        foldUnopened_eq_unionUnopened]

/-- The child segment a flattened child contributes to `flattenChildren`: a list
is spliced by its children, any other node is kept as a singleton. -/
def segOf : AstNode → List AstNode
  | .list _ _ _ _ ncs _ => ncs
  | .text i l => [.text i l]
  | .bracket i l => [.bracket i l]
  | .invalid i c l => [.invalid i c l]
  | .pair i len cat ob ch cb un => [.pair i len cat ob ch cb un]

/-- `flattenChildren` as segment concatenation. -/
theorem flattenChildren_cons (c : AstNode) (cs : List AstNode) :
    flattenChildren (c :: cs) = segOf (flattenLists c) ++ flattenChildren cs := by
  cases hfc : flattenLists c <;> simp [flattenChildren, segOf, hfc]

/-- For a node whose aggregates are consistent and which is not a list of
lists, its segment consists of non-list, consistent nodes whose total length
and union are the node's own. -/
theorem segOf_spec (m : AstNode) (hagg : aggOK m = true)
    (hnl : noListOfList m = true) :
    nonListChildren (segOf m) = true
    ∧ aggOKList (segOf m) = true
    ∧ sumLengths (segOf m) = m.length
    ∧ unionUnopened (segOf m) = m.unopenedBrackets := by
  cases m with
  | list i imm len h ncs un =>
      simp only [aggOK, Bool.and_eq_true, decide_eq_true_eq] at hagg
      simp only [noListOfList] at hnl
      refine ⟨hnl, ?_, ?_, ?_⟩
      · exact hagg.2
      · simp only [segOf, AstNode.length]
        exact hagg.1.1.symm
      · simp only [segOf, AstNode.unopenedBrackets]
        exact hagg.1.2.symm
  | text i l =>
      exact ⟨by simp [segOf, nonListChildren, AstNode.isList, noListOfList],
        by simp [segOf, aggOKList, aggOK],
        by simp only [segOf]; rw [sumLengths_singleton],
        by simp only [segOf]; rw [unionUnopened_singleton]⟩
  | bracket i l =>
      exact ⟨by simp [segOf, nonListChildren, AstNode.isList, noListOfList],
        by simp [segOf, aggOKList, aggOK],
        by simp only [segOf]; rw [sumLengths_singleton],
        by simp only [segOf]; rw [unionUnopened_singleton]⟩
  | invalid i cat l =>
      exact ⟨by simp [segOf, nonListChildren, AstNode.isList, noListOfList],
        by simp [segOf, aggOKList, aggOK],
        by simp only [segOf]; rw [sumLengths_singleton],
        by simp only [segOf]; rw [unionUnopened_singleton]⟩
  | pair i len cat ob ch cb un =>
      refine ⟨?_, ?_, by simp only [segOf]; rw [sumLengths_singleton],
        by simp only [segOf]; rw [unionUnopened_singleton]⟩
      · simp only [segOf, nonListChildren, AstNode.isList, Bool.not_false,
          Bool.true_and, Bool.and_true]
        exact hnl
      · simp only [segOf, aggOKList, Bool.and_true]
        exact hagg

/-- Pointwise good flattening of the children yields a good item sequence:
all items non-list and consistent, with sum/union preserved when the input
children are consistent. -/
theorem flattenChildren_good (cs : List AstNode)
    (ih : ∀ x ∈ cs,
      aggOK (flattenLists x) = true
      ∧ noListOfList (flattenLists x) = true
      ∧ (aggOK x = true →
          (flattenLists x).length = x.length
          ∧ (flattenLists x).unopenedBrackets = x.unopenedBrackets)) :
    nonListChildren (flattenChildren cs) = true
    ∧ aggOKList (flattenChildren cs) = true
    ∧ (aggOKList cs = true →
        sumLengths (flattenChildren cs) = sumLengths cs
        ∧ unionUnopened (flattenChildren cs) = unionUnopened cs) := by
  induction cs with
  | nil => exact ⟨rfl, rfl, fun _ => ⟨rfl, rfl⟩⟩
  | cons x xs ihl =>
      obtain ⟨hxa, hxn, hxp⟩ := ih x (List.mem_cons_self x xs)
      obtain ⟨hra, hrb, hrc⟩ := ihl (fun y hy => ih y (List.mem_cons_of_mem _ hy))
      obtain ⟨hs1, hs2, hs3, hs4⟩ := segOf_spec _ hxa hxn
      rw [flattenChildren_cons]
      refine ⟨?_, ?_, ?_⟩
      · rw [nonListChildren_append, hs1, hra]
        rfl
      · rw [aggOKList_append, hs2, hrb]
        rfl
      · intro hcs
        simp only [aggOKList, Bool.and_eq_true] at hcs
        obtain ⟨hp1, hp2⟩ := hxp hcs.1
        obtain ⟨hq1, hq2⟩ := hrc hcs.2
        constructor
        · rw [sumLengths_append, hs3, hp1, hq1, sumLengths_cons]
        · rw [unionUnopened_append, hs4, hp2, hq2, unionUnopened_cons]

/-- `flattenLists` always yields a tree with consistent aggregates and no
list-of-list; when the input's aggregates are consistent it also preserves the
total length and `unopenedBrackets`. -/
theorem flatten_good (n : AstNode) :
    aggOK (flattenLists n) = true
    ∧ noListOfList (flattenLists n) = true
    ∧ (aggOK n = true →
        (flattenLists n).length = n.length
        ∧ (flattenLists n).unopenedBrackets = n.unopenedBrackets) := by
  match n with
  | .text i l => exact ⟨rfl, rfl, fun _ => ⟨rfl, rfl⟩⟩
  | .bracket i l => exact ⟨rfl, rfl, fun _ => ⟨rfl, rfl⟩⟩
  | .invalid i cat l => exact ⟨rfl, rfl, fun _ => ⟨rfl, rfl⟩⟩
  | .pair i len cat ob ch cb un =>
      obtain ⟨hoa, hon, hop⟩ := flatten_good ob
      have hch : ∀ x, ch = some x →
          aggOK (flattenLists x) = true
          ∧ noListOfList (flattenLists x) = true
          ∧ (aggOK x = true →
              (flattenLists x).length = x.length
              ∧ (flattenLists x).unopenedBrackets = x.unopenedBrackets) := by
        intro x hx
        exact flatten_good x
      have hcb : ∀ x, cb = some x →
          aggOK (flattenLists x) = true
          ∧ noListOfList (flattenLists x) = true
          ∧ (aggOK x = true →
              (flattenLists x).length = x.length
              ∧ (flattenLists x).unopenedBrackets = x.unopenedBrackets) := by
        intro x hx
        exact flatten_good x
      cases ch with
      | none =>
          cases cb with
          | none =>
              refine ⟨?_, ?_, ?_⟩
              · simp [flattenLists, flattenListsOpt, PairAstNode.create, aggOK,
                  aggOKOpt, hoa]
              · simp [flattenLists, flattenListsOpt, PairAstNode.create,
                  noListOfList, noListOfListOpt, hon]
              · intro hp
                simp only [aggOK, aggOKOpt, Bool.and_eq_true,
                  decide_eq_true_eq] at hp
                obtain ⟨⟨⟨⟨hA, hB⟩, hC⟩, -⟩, -⟩ := hp
                simp only [flattenLists, flattenListsOpt, PairAstNode.create,
                  AstNode.length, AstNode.unopenedBrackets]
                obtain ⟨h1, h2⟩ := hop hC
                constructor
                · rw [hA]
                  simp only [computeLength]
                  rw [h1]
                · rw [hB]
          | some y =>
              obtain ⟨hya, hyn, hyp⟩ := hcb y rfl
              refine ⟨?_, ?_, ?_⟩
              · simp [flattenLists, flattenListsOpt, PairAstNode.create, aggOK,
                  aggOKOpt, hoa, hya]
              · simp [flattenLists, flattenListsOpt, PairAstNode.create,
                  noListOfList, noListOfListOpt, hon, hyn]
              · intro hp
                simp only [aggOK, aggOKOpt, Bool.and_eq_true,
                  decide_eq_true_eq] at hp
                obtain ⟨⟨⟨⟨hA, hB⟩, hC⟩, -⟩, hD⟩ := hp
                simp only [flattenLists, flattenListsOpt, PairAstNode.create,
                  AstNode.length, AstNode.unopenedBrackets]
                obtain ⟨h1, h2⟩ := hop hC
                obtain ⟨h3, h4⟩ := hyp hD
                constructor
                · rw [hA]
                  simp only [computeLength]
                  rw [h1, h3]
                · rw [hB]
      | some x =>
          obtain ⟨hxa, hxn, hxp⟩ := hch x rfl
          cases cb with
          | none =>
              refine ⟨?_, ?_, ?_⟩
              · simp [flattenLists, flattenListsOpt, PairAstNode.create, aggOK,
                  aggOKOpt, hoa, hxa]
              · simp [flattenLists, flattenListsOpt, PairAstNode.create,
                  noListOfList, noListOfListOpt, hon, hxn]
              · intro hp
                simp only [aggOK, aggOKOpt, Bool.and_eq_true,
                  decide_eq_true_eq] at hp
                obtain ⟨⟨⟨⟨hA, hB⟩, hC⟩, hD⟩, -⟩ := hp
                simp only [flattenLists, flattenListsOpt, PairAstNode.create,
                  AstNode.length, AstNode.unopenedBrackets]
                obtain ⟨h1, h2⟩ := hop hC
                obtain ⟨h3, h4⟩ := hxp hD
                constructor
                · rw [hA]
                  simp only [computeLength]
                  rw [h1, h3]
                · rw [hB]
                  exact h4
          | some y =>
              obtain ⟨hya, hyn, hyp⟩ := hcb y rfl
              refine ⟨?_, ?_, ?_⟩
              · simp [flattenLists, flattenListsOpt, PairAstNode.create, aggOK,
                  aggOKOpt, hoa, hxa, hya]
              · simp [flattenLists, flattenListsOpt, PairAstNode.create,
                  noListOfList, noListOfListOpt, hon, hxn, hyn]
              · intro hp
                simp only [aggOK, aggOKOpt, Bool.and_eq_true,
                  decide_eq_true_eq] at hp
                obtain ⟨⟨⟨⟨hA, hB⟩, hC⟩, hD⟩, hE⟩ := hp
                simp only [flattenLists, flattenListsOpt, PairAstNode.create,
                  AstNode.length, AstNode.unopenedBrackets]
                obtain ⟨h1, h2⟩ := hop hC
                obtain ⟨h3, h4⟩ := hxp hD
                obtain ⟨h5, h6⟩ := hyp hE
                constructor
                · rw [hA]
                  simp only [computeLength]
                  rw [h1, h3, h5]
                · rw [hB]
                  exact h4
  | .list i imm len h cs un =>
      obtain ⟨hfa, hfb, hfc⟩ := flattenChildren_good cs (fun x hx => flatten_good x)
      have hfl : flattenLists (.list i imm len h cs un)
          = ListAstNode.create 0 (flattenChildren cs) := by
        simp [flattenLists]
      rw [hfl, create_fields]
      refine ⟨?_, ?_, ?_⟩
      · simp [aggOK, hfb]
      · simp [noListOfList, hfa]
      · intro hl
        simp only [aggOK, Bool.and_eq_true, decide_eq_true_eq] at hl
        obtain ⟨hq1, hq2⟩ := hfc hl.2
        simp only [AstNode.length, AstNode.unopenedBrackets]
        exact ⟨by rw [hq1, hl.1.1], by rw [hq2, hl.1.2]⟩
termination_by sizeOf n
decreasing_by
  · simp
    omega
  · rw [hx]
    simp
    omega
  · rw [hx]
    simp
    omega
  · have := List.sizeOf_lt_of_mem hx
    simp
    omega

/-- C8 counterexample: `unappendChild` can produce a childless list with stale
length 1 (a node of the program's own API); double `flattenLists` rebuilds it
with the recomputed length 0, so the total length is not preserved and the claim
fails for that node. -/
theorem flatten_flatten_cex :
    unappendChild (ListAstNode.create 1 [AstNode.text 2 1])
      = Except.ok (some (AstNode.text 2 1),
          AstNode.list 1 false 1 1 [] CatSet.getEmpty)
    ∧ (flattenLists (flattenLists (AstNode.list 1 false 1 1 [] CatSet.getEmpty))).length
        = lengthZero
    ∧ (AstNode.list 1 false 1 1 [] CatSet.getEmpty).length = 1
    ∧ lengthZero ≠ (1 : Length) := by
  exact ⟨rfl, rfl, rfl, by decide⟩

/-- C8 (amended): for every node whose stored aggregates are consistent with
its children (as guaranteed by the `create` factories; violated only by
mutations that empty a list), `flattenLists (flattenLists x)` yields a tree in
which no list node has a list child and whose total length and
`unopenedBrackets` equal those of `x`. -/
theorem flatten_flatten_spec (n : AstNode) (hagg : aggOK n = true) :
    noListOfList (flattenLists (flattenLists n)) = true
    ∧ (flattenLists (flattenLists n)).length = n.length
    ∧ (flattenLists (flattenLists n)).unopenedBrackets = n.unopenedBrackets := by
  obtain ⟨h1, h2, h3⟩ := flatten_good n
  obtain ⟨g1, g2, g3⟩ := flatten_good (flattenLists n)
  obtain ⟨p1, p2⟩ := h3 hagg
  obtain ⟨q1, q2⟩ := g3 h1
  exact ⟨g2, by rw [q1, p1], by rw [q2, p2]⟩

/-- Concrete instantiation of the amended C8 statement at a consistent
singleton list built by the factory. -/
theorem flatten_flatten_spec_witness :
    aggOK (ListAstNode.create 0 [AstNode.text 1 1]) = true
    ∧ (noListOfList
          (flattenLists (flattenLists (ListAstNode.create 0 [AstNode.text 1 1])))
          = true
      ∧ (flattenLists (flattenLists (ListAstNode.create 0 [AstNode.text 1 1]))).length
          = (ListAstNode.create 0 [AstNode.text 1 1]).length
      ∧ (flattenLists (flattenLists (ListAstNode.create 0 [AstNode.text 1 1]))).unopenedBrackets
          = (ListAstNode.create 0 [AstNode.text 1 1]).unopenedBrackets) :=
  ⟨rfl, flatten_flatten_spec (ListAstNode.create 0 [AstNode.text 1 1]) rfl⟩
